import Mathlib

/-!
# Verification of the alchemist workflow graph model and execution engine

Shallow embedding of `alchemist/core/workflow.py` and
`alchemist/core/component.py`.

Python dictionaries (`self.components`, output tables, input mappings) are
modelled as insertion-ordered association lists with unique keys, matching
CPython dict semantics: lookup finds the entry, updating a present key keeps
its position, inserting a fresh key appends at the end, `del` removes the
entry.  Python sets used by the topological sort (`visited`, `temp_visited`)
are modelled as lists queried only through membership.

The payload type of component data (`Any` in Python) is a type parameter
`δ`.  Diagnostic fields that no claim touches (`metadata`, wall-clock
`execution_time`, the logger, per-component `status` bookkeeping during a
run) are omitted; everything the claims mention is translated.
-/

/-- Lookup in an insertion-ordered dictionary (`d[k]` / `k in d`). -/
def dlookup {α : Type} : List (String × α) → String → Option α
  | [], _ => none
  | (k, v) :: t, key => if k = key then some v else dlookup t key

/-- Key list of a dictionary, in insertion order (`d.keys()`). -/
def dkeys {α : Type} (g : List (String × α)) : List String :=
  g.map Prod.fst

/-- Dictionary update `d[k] = v`: overwrite in place if the key is present,
append otherwise (CPython dict semantics). -/
def dinsert {α : Type} : List (String × α) → String → α → List (String × α)
  | [], k, v => [(k, v)]
  | (k', v') :: t, k, v =>
    if k' = k then (k, v) :: t else (k', v') :: dinsert t k v

/-- Dictionary deletion `del d[k]` (removes the entry for `k`). -/
def ddelete {α : Type} : List (String × α) → String → List (String × α)
  | [], _ => []
  | (k', v') :: t, k => if k' = k then t else (k', v') :: ddelete t k

/-- In-place mutation of the value stored under a key, modelling
`d[k].method(...)` on a mutable Python object held in the dict. -/
def dupdate {α : Type} : List (String × α) → String → (α → α) → List (String × α)
  | [], _, _ => []
  | (k', v') :: t, k, f =>
    if k' = k then (k', f v') :: t else (k', v') :: dupdate t k f

/-- `ComponentStatus` from `component.py`. -/
inductive ComponentStatus where
  | pending | running | completed | failed | skipped
deriving DecidableEq

/-- `WorkflowStatus` from `workflow.py`. -/
inductive WorkflowStatus where
  | pending | running | completed | failed | cancelled
deriving DecidableEq

/-- `ComponentResult` from `component.py` (`metadata` and the wall-clock
`execution_time` are diagnostic and omitted). -/
structure ComponentResult (δ : Type) where
  status : ComponentStatus
  data : δ
  errors : List String
deriving DecidableEq

/-- Outcome of one call to a Python `Component.execute`: either it returns a
`ComponentResult`, or it raises an exception carrying a message (`str(e)`). -/
inductive ExecOutcome (δ : Type) where
  | ret (r : ComponentResult δ)
  | exn (msg : String)

/-- A workflow `Component`: the identity and dependency bookkeeping of
`component.py` plus its behavioural contract.  `run` is the (possibly
raising) `execute` method; `validate_config` is the pure boolean
`validate_config` method. -/
structure Comp (δ : Type) where
  name : String
  dependencies : List String
  outputs : List String
  run : List (String × δ) → ExecOutcome δ
  validate_config : Bool

/-- `Component.add_dependency`. -/
def add_dependency {δ : Type} (c : Comp δ) (dependency : String) : Comp δ :=
  if dependency ∈ c.dependencies then c
  else { c with dependencies := c.dependencies ++ [dependency] }

/-- `Component.add_output`. -/
def add_output {δ : Type} (c : Comp δ) (output : String) : Comp δ :=
  if output ∈ c.outputs then c
  else { c with outputs := c.outputs ++ [output] }

/-- The mutable graph state of a `Workflow`: the components dict and the
cached `execution_order`. -/
structure Workflow (δ : Type) where
  components : List (String × Comp δ)
  execution_order : List String

/-- Dependency list of the node as read by the topological sort
(`self.components[node].get_dependencies()`); the sort only reads this for
nodes present in the dict. -/
def depList {δ : Type} (g : List (String × Comp δ)) (node : String) : List String :=
  match dlookup g node with
  | some c => c.dependencies
  | none => []

/-- State of the depth-first topological sort of `_update_execution_order`:
the `visited` and `temp_visited` sets and the `order` accumulator. -/
structure TopoState where
  visited : List String
  temp : List String
  order : List String

/-- The `for dependency in ...: if dependency in self.components: visit(...)`
loop inside `visit`, abstracted over the recursive call `f`. -/
def visitFold {δ : Type} (g : List (String × Comp δ))
    (f : String → TopoState → Except String TopoState) :
    List String → TopoState → Except String TopoState
  | [], s => .ok s
  | d :: ds, s =>
    if d ∈ dkeys g then
      match f d s with
      | .error e => .error e
      | .ok s2 => visitFold g f ds s2
    else
      visitFold g f ds s

/-- One `visit(node)` call of the DFS in `_update_execution_order`.  The
`fuel` argument only bounds the recursion depth of the embedding; a chain of
nested `visit` frames adds a fresh node to `temp_visited` at every level, so
the depth never exceeds the number of components plus one, and the fuel
passed by `computeOrder` is never exhausted. -/
def visit {δ : Type} (g : List (String × Comp δ)) :
    Nat → String → TopoState → Except String TopoState
  | 0 => fun _ _ => .error "recursion limit reached"
  | fuel + 1 => fun node s =>
    if node ∈ s.temp then
      .error ("Circular dependency detected involving " ++ node)
    else if node ∈ s.visited then
      .ok s
    else
      match visitFold g (visit g fuel) (depList g node) { s with temp := node :: s.temp } with
      | .error e => .error e
      | .ok s2 =>
        .ok { visited := node :: s2.visited,
              temp := s2.temp.erase node,
              order := s2.order ++ [node] }

/-- The outer `for component_name in self.components` loop of
`_update_execution_order`. -/
def topoIter {δ : Type} (g : List (String × Comp δ)) :
    List String → TopoState → Except String TopoState
  | [], s => .ok s
  | n :: ns, s =>
    if n ∈ s.visited then topoIter g ns s
    else
      match visit g (g.length + 1) n s with
      | .error e => .error e
      | .ok s2 => topoIter g ns s2

/-- The topological sort of `_update_execution_order`: on success the new
order, on a detected cycle the raised error.  `execution_order` is assigned
only after the whole traversal succeeds. -/
def computeOrder {δ : Type} (g : List (String × Comp δ)) : Except String (List String) :=
  match topoIter g (dkeys g) ⟨[], [], []⟩ with
  | .error e => .error e
  | .ok s => .ok s.order

/-- `Workflow._update_execution_order` as a state transition: on success the
recomputed order is installed; on a raised cycle error the stored
`execution_order` is left untouched (the assignment is never reached). -/
def update_execution_order {δ : Type} (w : Workflow δ) :
    Except String Unit × Workflow δ :=
  match computeOrder w.components with
  | .ok order => (.ok (), { w with execution_order := order })
  | .error e => (.error e, w)

/-- `Workflow.add_component`.  Each method returns the outcome (normal return
or raised message) together with the post-call state of the workflow object,
so partially applied mutations that precede a raise stay visible. -/
def add_component {δ : Type} (w : Workflow δ) (c : Comp δ) :
    Except String Unit × Workflow δ :=
  if c.name ∈ dkeys w.components then
    (.error ("Component " ++ c.name ++ " already exists in workflow"), w)
  else
    update_execution_order { w with components := dinsert w.components c.name c }

/-- `Workflow.remove_component`. -/
def remove_component {δ : Type} (w : Workflow δ) (name : String) :
    Except String Unit × Workflow δ :=
  if name ∈ dkeys w.components then
    update_execution_order { w with components := ddelete w.components name }
  else
    (.error ("Component " ++ name ++ " not found in workflow"), w)

/-- `Workflow.connect_components`: the two mirror edge entries are added
first and only then is the order recomputed, so a detected cycle raises
after the edge lists have already been mutated. -/
def connect_components {δ : Type} (w : Workflow δ) (source target : String) :
    Except String Unit × Workflow δ :=
  if source ∉ dkeys w.components then
    (.error ("Source component " ++ source ++ " not found"), w)
  else if target ∉ dkeys w.components then
    (.error ("Target component " ++ target ++ " not found"), w)
  else
    let comps1 := dupdate w.components target (fun c => add_dependency c source)
    let comps2 := dupdate comps1 source (fun c => add_output c target)
    update_execution_order { w with components := comps2 }

/-- `Workflow._prepare_component_inputs`: the inner accumulation loop. -/
def prepareLoop {δ : Type} (available : List (String × δ)) :
    List String → List (String × δ) → List (String × δ)
  | [], inputs => inputs
  | d :: ds, inputs =>
    match dlookup available d with
    | some v => prepareLoop available ds (dinsert inputs d v)
    | none => prepareLoop available ds inputs

/-- `Workflow._prepare_component_inputs`. -/
def prepare_component_inputs {δ : Type} (c : Comp δ) (available : List (String × δ)) :
    List (String × δ) :=
  prepareLoop available c.dependencies []

/-- `WorkflowResult` (diagnostic `metadata` and wall-clock `execution_time`
omitted). -/
structure WorkflowResult (δ : Type) where
  status : WorkflowStatus
  component_results : List (String × ComponentResult δ)
  errors : List String
deriving DecidableEq

/-- Mutable state threaded through the execution loop of
`Workflow.execute`: accumulated `result.component_results`, `result.errors`
and the `component_outputs` table. -/
structure LoopState (δ : Type) where
  results : List (String × ComponentResult δ)
  errors : List String
  outputs : List (String × δ)

/-- How the `for component_name in self.execution_order` loop ended:
ran to completion, broke on a step reporting `FAILED`, or an exception
reached the surrounding `try`. -/
inductive LoopExit where
  | completed
  | failedBreak
  | raised (msg : String)

/-- The execution loop of `Workflow.execute`.  A missing key in
`self.components` would raise `KeyError(name)` whose `str` is the quoted
name; that exception is caught by the same `except` block as exceptions from
a component `execute`. -/
def runLoop {δ : Type} (comps : List (String × Comp δ)) :
    List String → LoopState δ → LoopState δ × LoopExit
  | [], s => (s, .completed)
  | name :: rest, s =>
    match dlookup comps name with
    | none => (s, .raised name)
    | some comp =>
      match comp.run (prepare_component_inputs comp s.outputs) with
      | .exn msg => (s, .raised msg)
      | .ret r =>
        let s1 : LoopState δ := { s with results := dinsert s.results name r }
        if r.status = ComponentStatus.failed then
          ({ s1 with errors := s1.errors ++ r.errors }, .failedBreak)
        else
          runLoop comps rest { s1 with outputs := dinsert s1.outputs name r.data }

/-- The table selected by `component_outputs = initial_inputs or {}`: the
falsy values `None` and the empty dict give a fresh table, a non-empty dict
is bound (aliased) directly. -/
def initialOutputs {δ : Type} (initial_inputs : Option (List (String × δ))) :
    List (String × δ) :=
  match initial_inputs with
  | none => []
  | some m => if m.isEmpty then [] else m

/-- `Workflow.execute`.  `initial_inputs or {}` makes the output table the
very caller-supplied dict when it is non-empty and a fresh dict otherwise.
The second component of the returned pair is the final contents of that
output table. -/
def execute {δ : Type} (w : Workflow δ) (initial_inputs : Option (List (String × δ))) :
    WorkflowResult δ × List (String × δ) :=
  match runLoop w.components w.execution_order ⟨[], [], initialOutputs initial_inputs⟩ with
  | (s, .completed) =>
    ({ status := .completed, component_results := s.results, errors := s.errors }, s.outputs)
  | (s, .failedBreak) =>
    ({ status := .failed, component_results := s.results, errors := s.errors }, s.outputs)
  | (s, .raised msg) =>
    ({ status := .failed, component_results := s.results, errors := s.errors ++ [msg] },
      s.outputs)

/-- `Workflow.validate`: first loop collects missing-dependency problems,
second loop collects per-component configuration problems. -/
def missingDepErrors {δ : Type} (g : List (String × Comp δ)) : List String :=
  g.foldl
    (fun acc p =>
      p.2.dependencies.foldl
        (fun acc2 d =>
          if d ∈ dkeys g then acc2
          else acc2 ++ ["Component " ++ p.1 ++ " depends on missing component " ++ d])
        acc)
    []

/-- The configuration-check loop of `Workflow.validate`. -/
def configErrors {δ : Type} (g : List (String × Comp δ)) : List String :=
  g.foldl
    (fun acc p =>
      if p.2.validate_config then acc
      else acc ++ ["Component " ++ p.1 ++ " has invalid configuration"])
    []

/-- `Workflow.validate`, in the same outcome-and-post-state shape as the
mutating methods.  The method body reads `self.components` and local
variables only and contains no assignment to `self`, so the post-call state
is the input state. -/
def validate {δ : Type} (w : Workflow δ) : List String × Workflow δ :=
  (missingDepErrors w.components ++ configErrors w.components, w)


/-! ## Dictionary lemmas -/

theorem dlookup_dinsert_self {α : Type} (g : List (String × α)) (k : String) (v : α) :
    dlookup (dinsert g k v) k = some v := by
  induction g with
  | nil => simp [dinsert, dlookup]
  | cons p t ih =>
    obtain ⟨k', v'⟩ := p
    by_cases h : k' = k
    · subst h
      simp [dinsert, dlookup]
    · simp [dinsert, dlookup, h, ih]

theorem dlookup_dinsert_ne {α : Type} (g : List (String × α)) {k k' : String} (v : α)
    (h : k' ≠ k) : dlookup (dinsert g k v) k' = dlookup g k' := by
  induction g with
  | nil => simp [dinsert, dlookup, Ne.symm h]
  | cons p t ih =>
    obtain ⟨k'', v''⟩ := p
    by_cases h2 : k'' = k
    · subst h2
      simp [dinsert, dlookup, Ne.symm h]
    · simp [dinsert, dlookup, h2, ih]

theorem dinsert_not_mem {α : Type} (g : List (String × α)) {k : String} (v : α)
    (h : k ∉ dkeys g) : dinsert g k v = g ++ [(k, v)] := by
  induction g with
  | nil => simp [dinsert]
  | cons p t ih =>
    obtain ⟨k', v'⟩ := p
    have h1 : k ≠ k' ∧ k ∉ dkeys t := by simpa [dkeys, not_or] using h
    simp [dinsert, Ne.symm h1.1, ih h1.2]

theorem dkeys_append {α : Type} (g h : List (String × α)) :
    dkeys (g ++ h) = dkeys g ++ dkeys h := by
  simp [dkeys]

theorem dkeys_dupdate {α : Type} (g : List (String × α)) (k : String) (f : α → α) :
    dkeys (dupdate g k f) = dkeys g := by
  induction g with
  | nil => rfl
  | cons p t ih =>
    obtain ⟨k', v'⟩ := p
    by_cases h : k' = k
    · simp [dupdate, h, dkeys]
    · simp only [dupdate, if_neg h, dkeys, List.map_cons, List.cons.injEq, true_and]
      simpa [dkeys] using ih

theorem dlookup_dupdate_self {α : Type} (g : List (String × α)) (k : String) (f : α → α) :
    dlookup (dupdate g k f) k = (dlookup g k).map f := by
  induction g with
  | nil => simp [dupdate, dlookup]
  | cons p t ih =>
    obtain ⟨k', v'⟩ := p
    by_cases h : k' = k
    · simp [dupdate, dlookup, h]
    · simp [dupdate, dlookup, h, ih]

theorem dlookup_dupdate_ne {α : Type} (g : List (String × α)) {k k' : String} (f : α → α)
    (h : k' ≠ k) : dlookup (dupdate g k f) k' = dlookup g k' := by
  induction g with
  | nil => simp [dupdate]
  | cons p t ih =>
    obtain ⟨k'', v''⟩ := p
    by_cases h2 : k'' = k
    · subst h2
      simp [dupdate, dlookup, Ne.symm h]
    · simp [dupdate, dlookup, h2, ih]

theorem dkeys_ddelete {α : Type} (g : List (String × α)) (k : String) :
    dkeys (ddelete g k) = (dkeys g).erase k := by
  induction g with
  | nil => simp [ddelete, dkeys]
  | cons p t ih =>
    obtain ⟨k', v'⟩ := p
    by_cases h : k' = k
    · subst h
      simp [ddelete, dkeys, List.erase_cons_head]
    · simp [ddelete, dkeys, List.erase_cons, h]
      simpa [dkeys] using ih

theorem dlookup_ddelete_ne {α : Type} (g : List (String × α)) {k k' : String}
    (h : k' ≠ k) : dlookup (ddelete g k) k' = dlookup g k' := by
  induction g with
  | nil => simp [ddelete]
  | cons p t ih =>
    obtain ⟨k'', v''⟩ := p
    by_cases h2 : k'' = k
    · subst h2
      simp [ddelete, dlookup, Ne.symm h]
    · simp [ddelete, dlookup, h2, ih]

theorem mem_dkeys_iff_lookup {α : Type} (g : List (String × α)) (k : String) :
    k ∈ dkeys g ↔ ∃ v, dlookup g k = some v := by
  induction g with
  | nil => simp [dkeys, dlookup]
  | cons p t ih =>
    obtain ⟨k', v'⟩ := p
    by_cases h : k' = k
    · simp [dkeys, dlookup, h]
    · have e1 : dkeys ((k', v') :: t) = k' :: dkeys t := rfl
      have e2 : dlookup ((k', v') :: t) k = dlookup t k := by
        simp [dlookup, h]
      rw [e1, e2, List.mem_cons, ih]
      simp [Ne.symm h]

theorem dlookup_mem_dkeys {α : Type} {g : List (String × α)} {k : String} {v : α}
    (h : dlookup g k = some v) : k ∈ dkeys g :=
  (mem_dkeys_iff_lookup g k).mpr ⟨v, h⟩

/-! ## Positions in a list: the notion of occurring before -/

/-- Index of the first occurrence of a string in a list (length if absent). -/
def sidx (a : String) : List String → Nat
  | [] => 0
  | b :: l => if b = a then 0 else sidx a l + 1

/-- `a` appears strictly before `b` in the list `l`. -/
def Before (l : List String) (a b : String) : Prop :=
  a ∈ l ∧ b ∈ l ∧ sidx a l < sidx b l

instance (l : List String) (a b : String) : Decidable (Before l a b) := by
  unfold Before
  infer_instance

theorem sidx_lt_length {a : String} {l : List String} (h : a ∈ l) :
    sidx a l < l.length := by
  induction l with
  | nil => cases h
  | cons b t ih =>
    by_cases hb : b = a
    · simp [sidx, hb]
    · have ht : a ∈ t := by
        rcases List.mem_cons.mp h with h1 | h1
        · exact absurd h1.symm hb
        · exact h1
      simp only [sidx, if_neg hb, List.length_cons]
      have := ih ht
      omega

theorem sidx_append_left {a : String} {l₁ : List String} (l₂ : List String)
    (h : a ∈ l₁) : sidx a (l₁ ++ l₂) = sidx a l₁ := by
  induction l₁ with
  | nil => cases h
  | cons b t ih =>
    by_cases hb : b = a
    · simp [sidx, hb]
    · have ht : a ∈ t := by
        rcases List.mem_cons.mp h with h1 | h1
        · exact absurd h1.symm hb
        · exact h1
      simp [sidx, hb, ih ht]

theorem sidx_append_right {a : String} {l₁ : List String} (l₂ : List String)
    (h : a ∉ l₁) : sidx a (l₁ ++ l₂) = l₁.length + sidx a l₂ := by
  induction l₁ with
  | nil => simp
  | cons b t ih =>
    have hb : ¬b = a := fun hh => h (by simp [hh])
    have ht : a ∉ t := fun hh => h (List.mem_cons_of_mem _ hh)
    simp only [List.cons_append, sidx, if_neg hb, List.length_cons]
    show sidx a (t ++ l₂) + 1 = t.length + 1 + sidx a l₂
    rw [ih ht]
    omega

theorem Before_append_mono {l : List String} {a b : String} (l' : List String)
    (h : Before l a b) : Before (l ++ l') a b := by
  obtain ⟨ha, hb, hlt⟩ := h
  exact ⟨List.mem_append_left _ ha, List.mem_append_left _ hb,
    by rw [sidx_append_left l' ha, sidx_append_left l' hb]; exact hlt⟩

theorem Before_snoc {l : List String} {a b : String} (ha : a ∈ l) (hb : b ∉ l) :
    Before (l ++ [b]) a b := by
  refine ⟨List.mem_append_left _ ha, List.mem_append_right _ (by simp), ?_⟩
  rw [sidx_append_left [b] ha, sidx_append_right [b] hb]
  have h1 := sidx_lt_length ha
  have h2 : sidx b [b] = 0 := by simp [sidx]
  omega

theorem Before_split {l₁ l₂ : List String} {a b : String}
    (hal : a ∉ l₁) (h : Before (l₁ ++ a :: l₂) a b) : b ∉ l₁ ∧ b ≠ a := by
  obtain ⟨-, -, hlt⟩ := h
  rw [sidx_append_right (a :: l₂) hal] at hlt
  have hsa : sidx a (a :: l₂) = 0 := by simp [sidx]
  constructor
  · intro hbl
    rw [sidx_append_left (a :: l₂) hbl] at hlt
    have := sidx_lt_length hbl
    omega
  · intro hba
    rw [hba] at hlt
    rw [sidx_append_right (a :: l₂) hal] at hlt
    omega

/-! ## Invariants of the depth-first topological sort -/

/-- The accumulated order is dependency-closed and topologically sorted:
every in-graph dependency of a listed node occurs strictly before it. -/
def DClosed {δ : Type} (g : List (String × Comp δ)) (l : List String) : Prop :=
  ∀ b, b ∈ l → ∀ a, a ∈ depList g b → a ∈ dkeys g → Before l a b

theorem DClosed_snoc {δ : Type} {g : List (String × Comp δ)} {l : List String} {node : String}
    (hcl : DClosed g l) (hnode : ∀ a, a ∈ depList g node → a ∈ dkeys g → a ∈ l)
    (hnl : node ∉ l) : DClosed g (l ++ [node]) := by
  intro b hb a hdep hak
  rcases List.mem_append.mp hb with hb | hb
  · exact Before_append_mono [node] (hcl b hb a hdep hak)
  · have hbn : b = node := by simpa using hb
    subst hbn
    exact Before_snoc (hnode a hdep hak) hnl

/-- Invariant of the sort state: the `visited` set is exactly the content of
the `order` accumulator, which lists distinct graph keys in an order that
respects the dependency edges. -/
structure TopoInv {δ : Type} (g : List (String × Comp δ)) (s : TopoState) : Prop where
  mem_iff : ∀ x, x ∈ s.visited ↔ x ∈ s.order
  nodup : s.order.Nodup
  sub_keys : ∀ x, x ∈ s.order → x ∈ dkeys g
  closed : DClosed g s.order

/-- What one successful traversal step guarantees: the invariant is
preserved, `temp_visited` is restored, the order only grows at the end, and
a node that was on the in-progress stack and unvisited stays unvisited. -/
structure TopoStep {δ : Type} (g : List (String × Comp δ)) (s s' : TopoState) : Prop where
  inv : TopoInv g s'
  temp_eq : s'.temp = s.temp
  ord_ext : ∃ t, s'.order = s.order ++ t
  protect : ∀ x, x ∈ s.temp → x ∉ s.visited → x ∉ s'.visited

theorem TopoStep_refl {δ : Type} {g : List (String × Comp δ)} {s : TopoState}
    (hs : TopoInv g s) : TopoStep g s s :=
  ⟨hs, rfl, ⟨[], by simp⟩, fun _ _ hx => hx⟩

theorem step_visited_mono {δ : Type} {g : List (String × Comp δ)} {s s' : TopoState}
    (hs : TopoInv g s) (st : TopoStep g s s') :
    ∀ x, x ∈ s.visited → x ∈ s'.visited := by
  intro x hx
  obtain ⟨t, ht⟩ := st.ord_ext
  have : x ∈ s'.order := by
    rw [ht]
    exact List.mem_append_left _ ((hs.mem_iff x).mp hx)
  exact (st.inv.mem_iff x).mpr this

theorem TopoStep_trans {δ : Type} {g : List (String × Comp δ)} {s s1 s2 : TopoState}
    (h1 : TopoStep g s s1) (h2 : TopoStep g s1 s2) : TopoStep g s s2 := by
  refine ⟨h2.inv, ?_, ?_, ?_⟩
  · rw [h2.temp_eq, h1.temp_eq]
  · obtain ⟨t1, ht1⟩ := h1.ord_ext
    obtain ⟨t2, ht2⟩ := h2.ord_ext
    exact ⟨t1 ++ t2, by rw [ht2, ht1, List.append_assoc]⟩
  · intro x hxt hxv
    exact h2.protect x (h1.temp_eq ▸ hxt) (h1.protect x hxt hxv)

theorem nodup_snoc {l : List String} {a : String} (hl : l.Nodup) (ha : a ∉ l) :
    (l ++ [a]).Nodup := by
  rw [List.nodup_append]
  refine ⟨hl, List.nodup_singleton a, ?_⟩
  intro x hx hxa
  have : x = a := by simpa using hxa
  subst this
  exact ha hx

/-- Specification of a successful dependency loop, abstracted over the
behaviour of the recursive call. -/
theorem visitFold_ok {δ : Type} (g : List (String × Comp δ))
    (f : String → TopoState → Except String TopoState)
    (V : ∀ node s s', node ∈ dkeys g → TopoInv g s → f node s = .ok s' →
      TopoStep g s s' ∧ node ∈ s'.visited) :
    ∀ ds s s', TopoInv g s → visitFold g f ds s = .ok s' →
      TopoStep g s s' ∧ ∀ d, d ∈ ds → d ∈ dkeys g → d ∈ s'.visited := by
  intro ds
  induction ds with
  | nil =>
    intro s s' hs h
    simp only [visitFold] at h
    injection h with h
    subst h
    exact ⟨TopoStep_refl hs, fun d hd _ => absurd hd (List.not_mem_nil d)⟩
  | cons d ds ihd =>
    intro s s' hs h
    simp only [visitFold] at h
    by_cases hd : d ∈ dkeys g
    · rw [if_pos hd] at h
      cases hv : f d s with
      | error e =>
        rw [hv] at h
        exact absurd h (by simp)
      | ok s1 =>
        rw [hv] at h
        obtain ⟨st1, hdvis⟩ := V d s s1 hd hs hv
        obtain ⟨st2, hrest⟩ := ihd s1 s' st1.inv h
        refine ⟨TopoStep_trans st1 st2, ?_⟩
        intro x hx hxk
        rcases List.mem_cons.mp hx with rfl | hx
        · exact step_visited_mono st1.inv st2 x hdvis
        · exact hrest x hx hxk
    · rw [if_neg hd] at h
      obtain ⟨st, hrest⟩ := ihd s s' hs h
      refine ⟨st, ?_⟩
      intro x hx hxk
      rcases List.mem_cons.mp hx with rfl | hx
      · exact absurd hxk hd
      · exact hrest x hx hxk

/-- Specification of a successful `visit` call, assuming the node is a graph
key and the state invariant holds at entry. -/
theorem visit_ok {δ : Type} (g : List (String × Comp δ)) :
    ∀ fuel node s s', node ∈ dkeys g → TopoInv g s → visit g fuel node s = .ok s' →
      TopoStep g s s' ∧ node ∈ s'.visited := by
  intro fuel
  induction fuel with
  | zero =>
    intro node s s' _ _ h
    exact absurd h (by simp [visit])
  | succ fuel ih =>
    intro node s s' hnk hs h
    have hdeps := visitFold_ok g (visit g fuel) ih
    simp only [visit] at h
    by_cases h1 : node ∈ s.temp
    · rw [if_pos h1] at h
      exact absurd h (by simp)
    rw [if_neg h1] at h
    by_cases h2 : node ∈ s.visited
    · rw [if_pos h2] at h
      injection h with h
      subst h
      exact ⟨TopoStep_refl hs, h2⟩
    rw [if_neg h2] at h
    cases hv : visitFold g (visit g fuel) (depList g node) { s with temp := node :: s.temp } with
    | error e =>
      rw [hv] at h
      exact absurd h (by simp)
    | ok s2 =>
      rw [hv] at h
      injection h with h
      have hs1inv : TopoInv g { s with temp := node :: s.temp } :=
        ⟨hs.mem_iff, hs.nodup, hs.sub_keys, hs.closed⟩
      obtain ⟨st, hdv⟩ := hdeps (depList g node) _ s2 hs1inv hv
      have htemp2 : s2.temp = node :: s.temp := st.temp_eq
      have hnodevis : node ∉ s2.visited :=
        st.protect node (List.mem_cons_self node s.temp) h2
      have hnodord : node ∉ s2.order := fun hh => hnodevis ((st.inv.mem_iff node).mpr hh)
      have hfin : TopoInv g
          { visited := node :: s2.visited,
            temp := s2.temp.erase node,
            order := s2.order ++ [node] } := by
        refine ⟨?_, ?_, ?_, ?_⟩
        · intro x
          simp only [List.mem_cons, List.mem_append, List.mem_singleton,
            st.inv.mem_iff x]
          constructor
          · rintro (rfl | hx)
            · exact Or.inr (Or.inl rfl)
            · exact Or.inl hx
          · rintro (hx | rfl | hx)
            · exact Or.inr hx
            · exact Or.inl rfl
            · cases hx
        · exact nodup_snoc st.inv.nodup hnodord
        · intro x hx
          rcases List.mem_append.mp hx with hx | hx
          · exact st.inv.sub_keys x hx
          · have : x = node := by simpa using hx
            subst this
            exact hnk
        · refine DClosed_snoc st.inv.closed ?_ hnodord
          intro a hdep hak
          exact (st.inv.mem_iff a).mp (hdv a hdep hak)
      subst h
      refine ⟨⟨hfin, ?_, ?_, ?_⟩, List.mem_cons_self node s2.visited⟩
      · show s2.temp.erase node = s.temp
        rw [htemp2, List.erase_cons_head]
      · obtain ⟨t, ht⟩ := st.ord_ext
        refine ⟨t ++ [node], ?_⟩
        show s2.order ++ [node] = s.order ++ (t ++ [node])
        rw [ht]
        simp
      · intro x hxt hxv
        have hxne : x ≠ node := fun hh => h1 (hh ▸ hxt)
        have hx2 : x ∉ s2.visited :=
          st.protect x (List.mem_cons_of_mem node hxt) hxv
        intro hc
        rcases List.mem_cons.mp hc with hc | hc
        · exact hxne hc
        · exact hx2 hc

/-- Specification of a successful outer traversal loop. -/
theorem topoIter_ok {δ : Type} (g : List (String × Comp δ)) :
    ∀ ns s s', (∀ n, n ∈ ns → n ∈ dkeys g) → TopoInv g s →
      topoIter g ns s = .ok s' → TopoStep g s s' ∧ ∀ n, n ∈ ns → n ∈ s'.visited := by
  intro ns
  induction ns with
  | nil =>
    intro s s' _ hs h
    simp only [topoIter] at h
    injection h with h
    subst h
    exact ⟨TopoStep_refl hs, fun n hn => absurd hn (List.not_mem_nil n)⟩
  | cons n ns ih =>
    intro s s' hks hs h
    simp only [topoIter] at h
    by_cases h1 : n ∈ s.visited
    · rw [if_pos h1] at h
      obtain ⟨st, hrest⟩ := ih s s' (fun m hm => hks m (List.mem_cons_of_mem n hm)) hs h
      refine ⟨st, fun m hm => ?_⟩
      rcases List.mem_cons.mp hm with rfl | hm
      · exact step_visited_mono hs st m h1
      · exact hrest m hm
    · rw [if_neg h1] at h
      cases hv : visit g (g.length + 1) n s with
      | error e =>
        rw [hv] at h
        exact absurd h (by simp)
      | ok s1 =>
        rw [hv] at h
        obtain ⟨st1, hnv⟩ :=
          visit_ok g (g.length + 1) n s s1 (hks n (List.mem_cons_self n ns)) hs hv
        obtain ⟨st2, hrest⟩ :=
          ih s1 s' (fun m hm => hks m (List.mem_cons_of_mem n hm)) st1.inv h
        refine ⟨TopoStep_trans st1 st2, fun m hm => ?_⟩
        rcases List.mem_cons.mp hm with rfl | hm
        · exact step_visited_mono st1.inv st2 m hnv
        · exact hrest m hm

/-- Postcondition of a successful `computeOrder`: the produced order is a
duplicate-free enumeration of exactly the component names, arranged so that
every in-graph dependency of a node occurs before the node. -/
theorem computeOrder_ok {δ : Type} {g : List (String × Comp δ)} {ord : List String}
    (h : computeOrder g = .ok ord) :
    ord.Nodup ∧ (∀ x, x ∈ ord ↔ x ∈ dkeys g) ∧ DClosed g ord := by
  unfold computeOrder at h
  cases ht : topoIter g (dkeys g) ⟨[], [], []⟩ with
  | error e =>
    rw [ht] at h
    exact absurd h (by simp)
  | ok s =>
    rw [ht] at h
    injection h with h
    subst h
    have hinv0 : TopoInv g ⟨[], [], []⟩ := by
      refine ⟨fun x => Iff.rfl, List.nodup_nil, ?_, ?_⟩
      · intro x hx
        exact absurd hx (List.not_mem_nil x)
      · intro b hb
        exact absurd hb (List.not_mem_nil b)
    obtain ⟨st, hall⟩ := topoIter_ok g (dkeys g) _ s (fun n hn => hn) hinv0 ht
    refine ⟨st.inv.nodup, fun x => ⟨fun hx => st.inv.sub_keys x hx, fun hx =>
      (st.inv.mem_iff x).mp (hall x hx)⟩, st.inv.closed⟩

/-! ## Graph well-formedness and reachable states -/

/-- Structural well-formedness of the components dict: unique names, every
edge endpoint mentioned in a `dependencies` or `outputs` list is a present
component, and the two edge lists are mirror images of each other. -/
structure GraphWF {δ : Type} (g : List (String × Comp δ)) : Prop where
  keys_nodup : (dkeys g).Nodup
  deps_sub : ∀ n c, dlookup g n = some c → ∀ a, a ∈ c.dependencies → a ∈ dkeys g
  outs_sub : ∀ n c, dlookup g n = some c → ∀ b, b ∈ c.outputs → b ∈ dkeys g
  mirror : ∀ a ca b cb, dlookup g a = some ca → dlookup g b = some cb →
    (a ∈ cb.dependencies ↔ b ∈ ca.outputs)

/-- Workflow states reachable from the empty workflow through `add_component`
of freshly constructed components and `connect_components` calls, keeping the
post-call object state whether or not the call raised. -/
inductive ReachM {δ : Type} : Workflow δ → Prop where
  | empty : ReachM { components := [], execution_order := [] }
  | add {w : Workflow δ} {c : Comp δ} (hw : ReachM w)
      (hd : c.dependencies = []) (ho : c.outputs = []) :
      ReachM (add_component w c).2
  | connect {w : Workflow δ} (s t : String) (hw : ReachM w) :
      ReachM (connect_components w s t).2

/-- Workflow states reachable from the empty workflow through successful
`add_component` (of freshly constructed components) and successful
`connect_components` calls. -/
inductive Reach {δ : Type} : Workflow δ → Prop where
  | empty : Reach { components := [], execution_order := [] }
  | add {w : Workflow δ} {c : Comp δ} (hw : Reach w)
      (hd : c.dependencies = []) (ho : c.outputs = [])
      (hok : (add_component w c).1 = .ok ()) :
      Reach (add_component w c).2
  | connect {w : Workflow δ} (s t : String) (hw : Reach w)
      (hok : (connect_components w s t).1 = .ok ()) :
      Reach (connect_components w s t).2

theorem reach_reachM {δ : Type} {w : Workflow δ} (hw : Reach w) : ReachM w := by
  induction hw with
  | empty => exact ReachM.empty
  | add hw hd ho _ ih => exact ReachM.add ih hd ho
  | connect s t hw _ ih => exact ReachM.connect s t ih

/-- The combined edge mutation performed by `connect_components` before it
recomputes the order: `target.add_dependency(source)` followed by
`source.add_output(target)` on the components dict. -/
def addEdge {δ : Type} (g : List (String × Comp δ)) (s t : String) : List (String × Comp δ) :=
  dupdate (dupdate g t (fun c => add_dependency c s)) s (fun c => add_output c t)

theorem update_execution_order_components {δ : Type} (w : Workflow δ) :
    (update_execution_order w).2.components = w.components := by
  unfold update_execution_order
  cases computeOrder w.components <;> simp

theorem update_execution_order_ok {δ : Type} {w : Workflow δ}
    (h : (update_execution_order w).1 = .ok ()) :
    computeOrder w.components = .ok (update_execution_order w).2.execution_order ∧
    (update_execution_order w).2.components = w.components := by
  unfold update_execution_order at h ⊢
  cases hco : computeOrder w.components with
  | error e =>
    rw [hco] at h
    exact absurd h (by simp)
  | ok ord => simp [hco]

theorem add_component_ok {δ : Type} {w : Workflow δ} {c : Comp δ}
    (h : (add_component w c).1 = .ok ()) :
    c.name ∉ dkeys w.components ∧
    add_component w c =
      update_execution_order { w with components := dinsert w.components c.name c } := by
  by_cases hm : c.name ∈ dkeys w.components
  · rw [add_component, if_pos hm] at h
    exact absurd h (by simp)
  · rw [add_component, if_neg hm] at h ⊢
    exact ⟨hm, rfl⟩

theorem connect_components_ok {δ : Type} {w : Workflow δ} {s t : String}
    (h : (connect_components w s t).1 = .ok ()) :
    s ∈ dkeys w.components ∧ t ∈ dkeys w.components ∧
    connect_components w s t =
      update_execution_order { w with components := addEdge w.components s t } := by
  by_cases hs : s ∈ dkeys w.components
  · by_cases ht : t ∈ dkeys w.components
    · rw [connect_components, if_neg (not_not_intro hs), if_neg (not_not_intro ht)] at h ⊢
      exact ⟨hs, ht, rfl⟩
    · rw [connect_components, if_neg (not_not_intro hs), if_pos ht] at h
      exact absurd h (by simp)
  · rw [connect_components, if_pos hs] at h
    exact absurd h (by simp)

theorem add_component_snd_components {δ : Type} (w : Workflow δ) (c : Comp δ) :
    (add_component w c).2.components =
      if c.name ∈ dkeys w.components then w.components
      else w.components ++ [(c.name, c)] := by
  by_cases hm : c.name ∈ dkeys w.components
  · rw [add_component, if_pos hm, if_pos hm]
  · rw [add_component, if_neg hm, if_neg hm, update_execution_order_components]
    exact dinsert_not_mem w.components c hm

theorem connect_components_snd_components {δ : Type} (w : Workflow δ) (s t : String) :
    (connect_components w s t).2.components =
      if s ∈ dkeys w.components ∧ t ∈ dkeys w.components then addEdge w.components s t
      else w.components := by
  by_cases hs : s ∈ dkeys w.components
  · by_cases ht : t ∈ dkeys w.components
    · rw [connect_components, if_neg (not_not_intro hs), if_neg (not_not_intro ht),
        if_pos ⟨hs, ht⟩, update_execution_order_components]
      rfl
    · rw [connect_components, if_neg (not_not_intro hs), if_pos ht,
        if_neg (fun hh => ht hh.2)]
  · rw [connect_components, if_pos hs, if_neg (fun hh => hs hh.1)]

theorem mem_add_dependency {δ : Type} (c : Comp δ) (s a : String) :
    a ∈ (add_dependency c s).dependencies ↔ a ∈ c.dependencies ∨ a = s := by
  unfold add_dependency
  by_cases h : s ∈ c.dependencies
  · rw [if_pos h]
    constructor
    · exact Or.inl
    · rintro (ha | rfl)
      · exact ha
      · exact h
  · rw [if_neg h]
    simp

theorem add_dependency_outputs {δ : Type} (c : Comp δ) (s : String) :
    (add_dependency c s).outputs = c.outputs := by
  unfold add_dependency
  split <;> rfl

theorem add_dependency_name {δ : Type} (c : Comp δ) (s : String) :
    (add_dependency c s).name = c.name := by
  unfold add_dependency
  split <;> rfl

theorem mem_add_output {δ : Type} (c : Comp δ) (t b : String) :
    b ∈ (add_output c t).outputs ↔ b ∈ c.outputs ∨ b = t := by
  unfold add_output
  by_cases h : t ∈ c.outputs
  · rw [if_pos h]
    constructor
    · exact Or.inl
    · rintro (hb | rfl)
      · exact hb
      · exact h
  · rw [if_neg h]
    simp

theorem add_output_dependencies {δ : Type} (c : Comp δ) (t : String) :
    (add_output c t).dependencies = c.dependencies := by
  unfold add_output
  split <;> rfl

theorem dlookup_append {α : Type} (g h : List (String × α)) (x : String) :
    dlookup (g ++ h) x =
      match dlookup g x with
      | some v => some v
      | none => dlookup h x := by
  induction g with
  | nil => simp [dlookup]
  | cons p t ih =>
    obtain ⟨k, v⟩ := p
    by_cases hk : k = x
    · simp [dlookup, hk]
    · simp [dlookup, hk, ih]

/-- Value-level description of the edge mutation of `connect_components`. -/
theorem dlookup_addEdge {δ : Type} (g : List (String × Comp δ)) (s t x : String) :
    dlookup (addEdge g s t) x =
      (dlookup g x).map (fun c =>
        (fun c1 => if x = s then add_output c1 t else c1)
          (if x = t then add_dependency c s else c)) := by
  unfold addEdge
  by_cases hxs : x = s
  · subst hxs
    rw [dlookup_dupdate_self]
    by_cases hxt : x = t
    · subst hxt
      rw [dlookup_dupdate_self]
      cases dlookup g x <;> simp
    · rw [dlookup_dupdate_ne _ _ hxt]
      cases dlookup g x <;> simp [hxt]
  · rw [dlookup_dupdate_ne _ _ hxs]
    by_cases hxt : x = t
    · subst hxt
      rw [dlookup_dupdate_self]
      cases dlookup g x <;> simp [hxs]
    · rw [dlookup_dupdate_ne _ _ hxt]
      cases dlookup g x <;> simp [hxs, hxt]

theorem dkeys_addEdge {δ : Type} (g : List (String × Comp δ)) (s t : String) :
    dkeys (addEdge g s t) = dkeys g := by
  unfold addEdge
  rw [dkeys_dupdate, dkeys_dupdate]

/-- `dlookup_addEdge` specialised to a present key. -/
theorem dlookup_addEdge_some {δ : Type} {g : List (String × Comp δ)} {x : String}
    {c : Comp δ} (s t : String) (hx : dlookup g x = some c) :
    dlookup (addEdge g s t) x =
      some (if x = s then add_output (if x = t then add_dependency c s else c) t
            else if x = t then add_dependency c s else c) := by
  rw [dlookup_addEdge, hx]
  rfl

/-- Membership in the dependency list after the edge mutation. -/
theorem addEdge_deps_mem {δ : Type} {g : List (String × Comp δ)} {s t x : String}
    {cx c : Comp δ} (hx : dlookup g x = some c)
    (hex : dlookup (addEdge g s t) x = some cx) (a : String) :
    a ∈ cx.dependencies ↔ a ∈ c.dependencies ∨ (x = t ∧ a = s) := by
  rw [dlookup_addEdge_some s t hx] at hex
  injection hex with hex
  by_cases hxt : x = t
  · by_cases hxs : x = s
    · rw [if_pos hxs, if_pos hxt] at hex
      subst hex
      rw [add_output_dependencies, mem_add_dependency]
      simp [hxt]
    · rw [if_neg hxs, if_pos hxt] at hex
      subst hex
      rw [mem_add_dependency]
      simp [hxt]
  · by_cases hxs : x = s
    · rw [if_pos hxs, if_neg hxt] at hex
      subst hex
      rw [add_output_dependencies]
      simp [hxt]
    · rw [if_neg hxs, if_neg hxt] at hex
      subst hex
      simp [hxt]

/-- Membership in the outputs list after the edge mutation. -/
theorem addEdge_outs_mem {δ : Type} {g : List (String × Comp δ)} {s t x : String}
    {cx c : Comp δ} (hx : dlookup g x = some c)
    (hex : dlookup (addEdge g s t) x = some cx) (b : String) :
    b ∈ cx.outputs ↔ b ∈ c.outputs ∨ (x = s ∧ b = t) := by
  rw [dlookup_addEdge_some s t hx] at hex
  injection hex with hex
  by_cases hxt : x = t
  · by_cases hxs : x = s
    · rw [if_pos hxs, if_pos hxt] at hex
      subst hex
      rw [mem_add_output, add_dependency_outputs]
      simp [hxs]
    · rw [if_neg hxs, if_pos hxt] at hex
      subst hex
      rw [add_dependency_outputs]
      simp [hxs]
  · by_cases hxs : x = s
    · rw [if_pos hxs, if_neg hxt] at hex
      subst hex
      rw [mem_add_output]
      simp [hxs]
    · rw [if_neg hxs, if_neg hxt] at hex
      subst hex
      simp [hxs]

theorem dlookup_addEdge_rev {δ : Type} {g : List (String × Comp δ)} {s t x : String}
    {cx : Comp δ} (h : dlookup (addEdge g s t) x = some cx) :
    ∃ c0, dlookup g x = some c0 := by
  rw [dlookup_addEdge] at h
  cases hc : dlookup g x with
  | none =>
    rw [hc] at h
    simp at h
  | some c0 => exact ⟨c0, rfl⟩

/-- Registering a freshly constructed component preserves graph
well-formedness. -/
theorem graphWF_append {δ : Type} {g : List (String × Comp δ)} {c : Comp δ}
    (hg : GraphWF g) (hd : c.dependencies = []) (ho : c.outputs = [])
    (hm : c.name ∉ dkeys g) : GraphWF (g ++ [(c.name, c)]) := by
  have hkeys : dkeys (g ++ [(c.name, c)]) = dkeys g ++ [c.name] := by
    rw [dkeys_append]
    rfl
  have hlook : ∀ x cx, dlookup (g ++ [(c.name, c)]) x = some cx →
      dlookup g x = some cx ∨ (dlookup g x = none ∧ x = c.name ∧ cx = c) := by
    intro x cx hx
    rw [dlookup_append] at hx
    cases hgx : dlookup g x with
    | some v =>
      simp only [hgx] at hx
      exact Or.inl hx
    | none =>
      simp only [hgx, dlookup] at hx
      by_cases hcx : c.name = x
      · rw [if_pos hcx] at hx
        injection hx with hx
        exact Or.inr ⟨rfl, hcx.symm, hx.symm⟩
      · rw [if_neg hcx] at hx
        exact absurd hx (by simp)
  refine ⟨?_, ?_, ?_, ?_⟩
  · rw [hkeys]
    exact nodup_snoc hg.keys_nodup hm
  · intro n cn hn a ha
    rw [hkeys]
    rcases hlook n cn hn with h | ⟨_, _, rfl⟩
    · exact List.mem_append_left _ (hg.deps_sub n cn h a ha)
    · rw [hd] at ha
      cases ha
  · intro n cn hn b hb
    rw [hkeys]
    rcases hlook n cn hn with h | ⟨_, _, rfl⟩
    · exact List.mem_append_left _ (hg.outs_sub n cn h b hb)
    · rw [ho] at hb
      cases hb
  · intro a ca b cb hea heb
    rcases hlook a ca hea with ha | ⟨hanone, han, hac⟩
    · rcases hlook b cb heb with hb | ⟨hbnone, hbn, hbc⟩
      · exact hg.mirror a ca b cb ha hb
      · subst hbn
        constructor
        · intro hin
          rw [hbc, hd] at hin
          cases hin
        · intro hin
          exact absurd (hg.outs_sub a ca ha c.name hin) hm
    · subst han
      rcases hlook b cb heb with hb | ⟨hbnone, hbn, hbc⟩
      · constructor
        · intro hin
          exact absurd (hg.deps_sub b cb hb c.name hin) hm
        · intro hin
          rw [hac, ho] at hin
          cases hin
      · constructor
        · intro hin
          rw [hbc, hd] at hin
          cases hin
        · intro hin
          rw [hac, ho] at hin
          cases hin

/-- The edge mutation of a `connect_components` call between two present
components preserves graph well-formedness (whether or not the subsequent
order recomputation raises). -/
theorem graphWF_addEdge {δ : Type} {g : List (String × Comp δ)} (hg : GraphWF g)
    {s t : String} (hs : s ∈ dkeys g) (ht : t ∈ dkeys g) : GraphWF (addEdge g s t) := by
  refine ⟨?_, ?_, ?_, ?_⟩
  · rw [dkeys_addEdge]
    exact hg.keys_nodup
  · intro n cn hn a ha
    rw [dkeys_addEdge]
    obtain ⟨c0, hc0⟩ := dlookup_addEdge_rev hn
    rcases (addEdge_deps_mem hc0 hn a).mp ha with ha | ⟨_, rfl⟩
    · exact hg.deps_sub n c0 hc0 a ha
    · exact hs
  · intro n cn hn b hb
    rw [dkeys_addEdge]
    obtain ⟨c0, hc0⟩ := dlookup_addEdge_rev hn
    rcases (addEdge_outs_mem hc0 hn b).mp hb with hb | ⟨_, rfl⟩
    · exact hg.outs_sub n c0 hc0 b hb
    · exact ht
  · intro a ca b cb hea heb
    obtain ⟨ca0, hca0⟩ := dlookup_addEdge_rev hea
    obtain ⟨cb0, hcb0⟩ := dlookup_addEdge_rev heb
    rw [addEdge_deps_mem hcb0 heb a, addEdge_outs_mem hca0 hea b]
    constructor
    · rintro (h | ⟨rfl, rfl⟩)
      · exact Or.inl ((hg.mirror a ca0 b cb0 hca0 hcb0).mp h)
      · exact Or.inr ⟨rfl, rfl⟩
    · rintro (h | ⟨rfl, rfl⟩)
      · exact Or.inl ((hg.mirror a ca0 b cb0 hca0 hcb0).mpr h)
      · exact Or.inr ⟨rfl, rfl⟩

/-- Every state reachable through `add_component` and `connect_components`
calls (successful or raising) has a well-formed graph; in particular the
mirror invariant holds. -/
theorem reachM_wf {δ : Type} {w : Workflow δ} (hw : ReachM w) :
    GraphWF w.components := by
  induction hw with
  | empty =>
    refine ⟨List.nodup_nil, ?_, ?_, ?_⟩
    · intro n c h
      exact absurd h (by simp [dlookup])
    · intro n c h
      exact absurd h (by simp [dlookup])
    · intro a ca b cb ha hb
      exact absurd ha (by simp [dlookup])
  | @add w c hw hd ho ih =>
    rw [add_component_snd_components]
    by_cases hm : c.name ∈ dkeys w.components
    · rw [if_pos hm]
      exact ih
    · rw [if_neg hm]
      exact graphWF_append ih hd ho hm
  | @connect w s t hw ih =>
    rw [connect_components_snd_components]
    by_cases hst : s ∈ dkeys w.components ∧ t ∈ dkeys w.components
    · rw [if_pos hst]
      exact graphWF_addEdge ih hst.1 hst.2
    · rw [if_neg hst]
      exact ih

/-- Well-formedness of the cached execution order. -/
structure OrderWF {δ : Type} (w : Workflow δ) : Prop where
  mem_iff : ∀ x, x ∈ w.execution_order ↔ x ∈ dkeys w.components
  nodup : w.execution_order.Nodup
  closed : DClosed w.components w.execution_order

theorem update_ok_orderWF {δ : Type} {w : Workflow δ}
    (h : (update_execution_order w).1 = .ok ()) :
    OrderWF (update_execution_order w).2 := by
  obtain ⟨hco, hcomp⟩ := update_execution_order_ok h
  obtain ⟨hnd, hmem, hcl⟩ := computeOrder_ok hco
  refine ⟨?_, hnd, ?_⟩
  · intro x
    rw [hcomp]
    exact hmem x
  · rw [hcomp]
    exact hcl

/-- Every state built by successful `add_component` and `connect_components`
calls carries a well-formed execution order. -/
theorem reach_orderWF {δ : Type} {w : Workflow δ} (hw : Reach w) : OrderWF w := by
  induction hw with
  | empty =>
    refine ⟨fun x => ?_, List.nodup_nil, ?_⟩
    · simp [dkeys]
    · intro b hb
      exact absurd hb (List.not_mem_nil b)
  | @add w c hw hd ho hok ih =>
    obtain ⟨hm, heq⟩ := add_component_ok hok
    have hok2 :
        (update_execution_order
          { w with components := dinsert w.components c.name c }).1 = .ok () := by
      rw [← heq]
      exact hok
    rw [heq]
    exact update_ok_orderWF hok2
  | @connect w s t hw hok ih =>
    obtain ⟨hs, ht, heq⟩ := connect_components_ok hok
    have hok2 :
        (update_execution_order { w with components := addEdge w.components s t }).1 =
          .ok () := by
      rw [← heq]
      exact hok
    rw [heq]
    exact update_ok_orderWF hok2

/-- C1: for every graph state reachable by a sequence of successful
`add_component` and `connect_components` calls, the recomputed execution
order is a permutation of the names of all components in the graph, and for
every dependency edge (A a dependency of B), A appears before B in the
order. -/
theorem execution_order_topological {δ : Type} {w : Workflow δ} (hw : Reach w) :
    w.execution_order.Perm (dkeys w.components) ∧
    ∀ b cb a, dlookup w.components b = some cb → a ∈ cb.dependencies →
      Before w.execution_order a b := by
  have hord := reach_orderWF hw
  have hwf := reachM_wf (reach_reachM hw)
  constructor
  · exact (List.perm_ext_iff_of_nodup hord.nodup hwf.keys_nodup).mpr hord.mem_iff
  · intro b cb a hb ha
    have hbk : b ∈ dkeys w.components := dlookup_mem_dkeys hb
    have hbord : b ∈ w.execution_order := (hord.mem_iff b).mpr hbk
    have hak : a ∈ dkeys w.components := hwf.deps_sub b cb hb a ha
    have hdep : a ∈ depList w.components b := by
      unfold depList
      rw [hb]
      exact ha
    exact hord.closed b hbord a hdep hak

/-- A minimal concrete component used by the witnesses (payload type `Nat`). -/
def wComp (n : String) : Comp Nat :=
  { name := n, dependencies := [], outputs := [],
    run := fun _ => .ret { status := .completed, data := 0, errors := [] },
    validate_config := true }

def wEmpty : Workflow Nat := { components := [], execution_order := [] }

def wStep1 : Workflow Nat := (add_component wEmpty (wComp "A")).2

def wStep2 : Workflow Nat := (add_component wStep1 (wComp "B")).2

/-- Two components A, B with one edge A → B, built through the API. -/
def wG : Workflow Nat := (connect_components wStep2 "A" "B").2

theorem reach_wG : Reach wG :=
  Reach.connect "A" "B"
    (Reach.add (Reach.add Reach.empty rfl rfl rfl) rfl rfl rfl) rfl

/-- Witness for C1 at the concrete graph `wG`. -/
theorem execution_order_topological_witness :
    wG.execution_order.Perm (dkeys wG.components) ∧ Before wG.execution_order "A" "B" :=
  ⟨(execution_order_topological reach_wG).1,
   (execution_order_topological reach_wG).2 "B" (add_dependency (wComp "B") "A") "A"
     rfl (by decide)⟩

/-- C2 (code bug evidence): on the two-component graph with edge A → B, the
call `connect_components "B" "A"` raises the circular-dependency error, yet
it leaves the new edge in the components dict: afterwards component A lists
B among its dependencies (and B lists A among its outputs), although the
spec requires the edge set to be unchanged.  Only `execution_order` is left
at its previous value. -/
theorem connect_cycle_mutates :
    (connect_components wG "B" "A").1 =
      .error "Circular dependency detected involving A" ∧
    (dlookup wG.components "A").map Comp.dependencies = some [] ∧
    (dlookup (connect_components wG "B" "A").2.components "A").map Comp.dependencies =
      some ["B"] ∧
    (dlookup (connect_components wG "B" "A").2.components "B").map Comp.outputs =
      some ["A"] ∧
    (connect_components wG "B" "A").2.execution_order = ["A", "B"] :=
  ⟨rfl, rfl, rfl, rfl, rfl⟩

/-- C5 counterexample: removing component A from the graph A → B succeeds but
leaves the name "A" in the dependency list of the remaining component B, so
the removal does not delete the edges referencing the removed step. -/
theorem remove_component_leaves_dangling :
    (remove_component wG "A").1 = .ok () ∧
    (dlookup (remove_component wG "A").2.components "B").map Comp.dependencies =
      some ["A"] :=
  ⟨rfl, rfl⟩

theorem update_execution_order_of_ok {δ : Type} {w : Workflow δ} {ord : List String}
    (h : computeOrder w.components = .ok ord) :
    update_execution_order w = (.ok (), { w with execution_order := ord }) := by
  unfold update_execution_order
  rw [h]

/-- C5 (amended): `remove_component` fails with the not-found error and
leaves the workflow untouched when the name is absent; when the name is
present it removes exactly that entry from the components dict — other
components, including any dangling references to the removed name inside
their `dependencies`/`outputs` lists, are left unchanged — and then
recomputes the execution order from the remaining components. -/
theorem remove_component_spec {δ : Type} (w : Workflow δ) (name : String) :
    (name ∉ dkeys w.components →
      remove_component w name =
        (.error ("Component " ++ name ++ " not found in workflow"), w)) ∧
    (name ∈ dkeys w.components →
      (remove_component w name).2.components = ddelete w.components name ∧
      (∀ m c, m ≠ name → dlookup w.components m = some c →
        dlookup (remove_component w name).2.components m = some c) ∧
      (∀ ord, computeOrder (ddelete w.components name) = .ok ord →
        remove_component w name =
          (.ok (), { components := ddelete w.components name,
                     execution_order := ord }))) := by
  constructor
  · intro hm
    rw [remove_component, if_neg hm]
  · intro hm
    refine ⟨?_, ?_, ?_⟩
    · rw [remove_component, if_pos hm, update_execution_order_components]
    · intro m c hne hc
      rw [remove_component, if_pos hm, update_execution_order_components]
      show dlookup (ddelete w.components name) m = some c
      rw [dlookup_ddelete_ne _ hne]
      exact hc
    · intro ord hord
      rw [remove_component, if_pos hm]
      have h2 :
          computeOrder ({ w with components := ddelete w.components name } :
            Workflow δ).components = .ok ord := hord
      rw [update_execution_order_of_ok h2]

/-- Witness for C5 on concrete inputs: a successful removal (present name)
and a failing removal (absent name). -/
theorem remove_component_spec_witness :
    (remove_component wG "A" =
      (.ok (), { components := ddelete wG.components "A",
                 execution_order := ["B"] })) ∧
    remove_component wEmpty "X" =
      (.error "Component X not found in workflow", wEmpty) := by
  constructor
  · exact ((remove_component_spec wG "A").2 (by decide)).2.2 ["B"] rfl
  · exact (remove_component_spec wEmpty "X").1 (by decide)

/-- Graph A → B with B then removed and a fresh component named B re-added:
every operation in the sequence succeeds. -/
def wRe : Workflow Nat := (add_component (remove_component wG "B").2 (wComp "B")).2

/-- C6 counterexample: after the successful operation sequence add A, add B,
connect A → B, remove B, add B, components named A and B are both present in
the graph, yet A still lists B among its outputs while the (fresh) B does
not list A among its dependencies — the dependencies/outputs lists are not
mirror images after every sequence of graph operations. -/
theorem mirror_invariant_fails :
    (remove_component wG "B").1 = .ok () ∧
    (add_component (remove_component wG "B").2 (wComp "B")).1 = .ok () ∧
    "A" ∈ dkeys wRe.components ∧ "B" ∈ dkeys wRe.components ∧
    (dlookup wRe.components "A").map Comp.outputs = some ["B"] ∧
    (dlookup wRe.components "B").map Comp.dependencies = some [] :=
  ⟨rfl, rfl, by decide, by decide, rfl, rfl⟩

/-- C6 (amended): in any operation sequence made of `add_component` (of
freshly constructed components) and `connect_components` alone — no
`remove_component` — the dependency and output lists are consistent mirror
images for every pair of present components after every call, whether the
call succeeded or raised. -/
theorem mirror_invariant_addconnect {δ : Type} {w : Workflow δ} (hw : ReachM w) :
    ∀ a ca b cb, dlookup w.components a = some ca → dlookup w.components b = some cb →
      (a ∈ cb.dependencies ↔ b ∈ ca.outputs) :=
  (reachM_wf hw).mirror

/-- State after the raising cycle-creating call on `wG`: still reachable in
the sense of `ReachM`. -/
def wGcyc : Workflow Nat := (connect_components wG "B" "A").2

theorem reachM_wGcyc : ReachM wGcyc :=
  ReachM.connect "B" "A"
    (ReachM.connect "A" "B"
      (ReachM.add (ReachM.add ReachM.empty rfl rfl) rfl rfl))

/-- Witness for C6 (amended) at the concrete post-raise state `wGcyc`. -/
theorem mirror_invariant_addconnect_witness :
    ("A" ∈ (add_output (add_dependency (wComp "B") "A") "A").dependencies ↔
      "B" ∈ (add_dependency (add_output (wComp "A") "B") "B").outputs) ∧
    "A" ∈ (add_output (add_dependency (wComp "B") "A") "A").dependencies :=
  ⟨mirror_invariant_addconnect reachM_wGcyc "A" _ "B" _ rfl rfl, by decide⟩

/-! ## Execution loop lemmas -/

/-- Splitting a list at the first occurrence of a member. -/
theorem first_split {a : String} :
    ∀ {l : List String}, a ∈ l → ∃ l₁ l₂, l = l₁ ++ a :: l₂ ∧ a ∉ l₁ := by
  intro l
  induction l with
  | nil =>
    intro h
    cases h
  | cons b t ih =>
    intro h
    by_cases hb : b = a
    · subst hb
      exact ⟨[], t, rfl, by simp⟩
    · rcases List.mem_cons.mp h with h1 | h1
      · exact absurd h1.symm hb
      · obtain ⟨l₁, l₂, heq, hna⟩ := ih h1
        refine ⟨b :: l₁, l₂, by rw [heq, List.cons_append], ?_⟩
        intro hc
        rcases List.mem_cons.mp hc with rfl | hc
        · exact hb rfl
        · exact hna hc

/-- One iteration of the loop on a component that returns a non-failed
result. -/
theorem runLoop_clean_head {δ : Type} (comps : List (String × Comp δ)) (n : String)
    (rest : List String) (s : LoopState δ) {c : Comp δ} {r : ComponentResult δ}
    (hc : dlookup comps n = some c)
    (hr : c.run (prepare_component_inputs c s.outputs) = .ret r)
    (hst : r.status ≠ .failed) :
    runLoop comps (n :: rest) s =
      runLoop comps rest
        { results := dinsert s.results n r, errors := s.errors,
          outputs := dinsert s.outputs n r.data } := by
  simp only [runLoop, hc, hr, if_neg hst]

/-- One iteration of the loop on a component that returns a Failed result:
the loop records the result, extends the error list and breaks. -/
theorem runLoop_failed_head {δ : Type} (comps : List (String × Comp δ)) (n : String)
    (rest : List String) (s : LoopState δ) {c : Comp δ} {r : ComponentResult δ}
    (hc : dlookup comps n = some c)
    (hr : c.run (prepare_component_inputs c s.outputs) = .ret r)
    (hst : r.status = .failed) :
    runLoop comps (n :: rest) s =
      ({ results := dinsert s.results n r, errors := s.errors ++ r.errors,
         outputs := s.outputs }, .failedBreak) := by
  simp only [runLoop, hc, hr, if_pos hst]

/-- One iteration of the loop on a component whose `execute` raises. -/
theorem runLoop_exn_head {δ : Type} (comps : List (String × Comp δ)) (n : String)
    (rest : List String) (s : LoopState δ) {c : Comp δ} {msg : String}
    (hc : dlookup comps n = some c)
    (hr : c.run (prepare_component_inputs c s.outputs) = .exn msg) :
    runLoop comps (n :: rest) s = (s, .raised msg) := by
  simp only [runLoop, hc, hr]

/-- Running the loop over a prefix of components that all return non-failed
results reaches the rest of the list in a state with unchanged errors and
with results recorded only for the prefix; a second components dict that
agrees with the first on the prefix names goes through the very same
states. -/
theorem runLoop_clean_prefix {δ : Type} (comps comps' : List (String × Comp δ)) :
    ∀ (l₁ rest : List String) (s : LoopState δ),
      (∀ n, n ∈ l₁ → dlookup comps' n = dlookup comps n) →
      (∀ n, n ∈ l₁ → ∃ c, dlookup comps n = some c ∧
        ∀ ins, ∃ r, c.run ins = .ret r ∧ r.status ≠ .failed) →
      ∃ s₁ : LoopState δ,
        runLoop comps (l₁ ++ rest) s = runLoop comps rest s₁ ∧
        runLoop comps' (l₁ ++ rest) s = runLoop comps' rest s₁ ∧
        s₁.errors = s.errors ∧
        (∀ m, m ∉ l₁ → dlookup s₁.results m = dlookup s.results m) := by
  intro l₁
  induction l₁ with
  | nil =>
    intro rest s _ _
    exact ⟨s, rfl, rfl, rfl, fun m _ => rfl⟩
  | cons n l₁ ih =>
    intro rest s hagree hclean
    obtain ⟨c, hc, hrun⟩ := hclean n (List.mem_cons_self n l₁)
    obtain ⟨r, hr, hst⟩ := hrun (prepare_component_inputs c s.outputs)
    have hc' : dlookup comps' n = some c := by
      rw [hagree n (List.mem_cons_self n l₁)]
      exact hc
    obtain ⟨s₁, f1, f2, ferr, fres⟩ :=
      ih rest
        { results := dinsert s.results n r, errors := s.errors,
          outputs := dinsert s.outputs n r.data }
        (fun m hm => hagree m (List.mem_cons_of_mem n hm))
        (fun m hm => hclean m (List.mem_cons_of_mem n hm))
    refine ⟨s₁, ?_, ?_, ferr, ?_⟩
    · rw [List.cons_append, runLoop_clean_head comps n (l₁ ++ rest) s hc hr hst]
      exact f1
    · rw [List.cons_append, runLoop_clean_head comps' n (l₁ ++ rest) s hc' hr hst]
      exact f2
    · intro m hm
      have hmn : m ≠ n := fun hh => hm (hh ▸ List.mem_cons_self n l₁)
      have hml : m ∉ l₁ := fun hh => hm (List.mem_cons_of_mem n hh)
      rw [fres m hml]
      exact dlookup_dinsert_ne s.results r hmn

theorem execute_of_failedBreak {δ : Type} {w : Workflow δ}
    (init : Option (List (String × δ))) {out : LoopState δ}
    (h : runLoop w.components w.execution_order ⟨[], [], initialOutputs init⟩ =
      (out, .failedBreak)) :
    execute w init =
      ({ status := .failed, component_results := out.results, errors := out.errors },
        out.outputs) := by
  unfold execute
  rw [h]

theorem execute_of_raised {δ : Type} {w : Workflow δ}
    (init : Option (List (String × δ))) {out : LoopState δ} {msg : String}
    (h : runLoop w.components w.execution_order ⟨[], [], initialOutputs init⟩ =
      (out, .raised msg)) :
    execute w init =
      ({ status := .failed, component_results := out.results,
         errors := out.errors ++ [msg] }, out.outputs) := by
  unfold execute
  rw [h]

theorem execute_of_completed {δ : Type} {w : Workflow δ}
    (init : Option (List (String × δ))) {out : LoopState δ}
    (h : runLoop w.components w.execution_order ⟨[], [], initialOutputs init⟩ =
      (out, .completed)) :
    execute w init =
      ({ status := .completed, component_results := out.results, errors := out.errors },
        out.outputs) := by
  unfold execute
  rw [h]

/-- Replace the `execute` behaviour of one named component, leaving
everything else (names, edges, order) unchanged; used to state that a
component is never invoked. -/
def setRun {δ : Type} (w : Workflow δ) (name : String)
    (f : List (String × δ) → ExecOutcome δ) : Workflow δ :=
  { w with components := dupdate w.components name (fun cc => { cc with run := f }) }

/-- C3: on a reachable graph where component B depends on component A, if
A's execute always returns a Failed result while every other component
returns non-failed results, the run reports status Failed, records a result
entry for A but none for B, appends exactly A's errors to the run error
list, and never invokes B's execute: replacing B's run behaviour does not
change the outcome of the run at all. -/
theorem failed_component_short_circuits {δ : Type} {w : Workflow δ} (hw : Reach w)
    (A B : String) (cA cB : Comp δ)
    (hA : dlookup w.components A = some cA)
    (hB : dlookup w.components B = some cB)
    (hdep : A ∈ cB.dependencies)
    (hAfail : ∀ ins, ∃ r, cA.run ins = .ret r ∧ r.status = .failed)
    (hothers : ∀ n c, dlookup w.components n = some c → n ≠ A →
      ∀ ins, ∃ r, c.run ins = .ret r ∧ r.status ≠ .failed) :
    (execute w none).1.status = .failed ∧
    (∃ r, dlookup (execute w none).1.component_results A = some r ∧
      r.status = .failed ∧ (execute w none).1.errors = r.errors) ∧
    dlookup (execute w none).1.component_results B = none ∧
    (∀ f, execute (setRun w B f) none = execute w none) := by
  have hord := reach_orderWF hw
  have hwf := reachM_wf (reach_reachM hw)
  have hAk : A ∈ dkeys w.components := dlookup_mem_dkeys hA
  have hBk : B ∈ dkeys w.components := dlookup_mem_dkeys hB
  have hAo : A ∈ w.execution_order := (hord.mem_iff A).mpr hAk
  have hdepL : A ∈ depList w.components B := by
    unfold depList
    rw [hB]
    exact hdep
  have hBefore : Before w.execution_order A B :=
    hord.closed B ((hord.mem_iff B).mpr hBk) A hdepL (hwf.deps_sub B cB hB A hdep)
  obtain ⟨l₁, l₂, horder, hAl₁⟩ := first_split hAo
  have hBl : B ∉ l₁ ∧ B ≠ A := Before_split hAl₁ (horder ▸ hBefore)
  have hcleanl₁ : ∀ n, n ∈ l₁ → ∃ c, dlookup w.components n = some c ∧
      ∀ ins, ∃ r, c.run ins = .ret r ∧ r.status ≠ .failed := by
    intro n hn
    have hnord : n ∈ w.execution_order := by
      rw [horder]
      exact List.mem_append_left _ hn
    have hnk : n ∈ dkeys w.components := (hord.mem_iff n).mp hnord
    obtain ⟨c, hcv⟩ := (mem_dkeys_iff_lookup _ n).mp hnk
    have hnA : n ≠ A := fun hh => hAl₁ (hh ▸ hn)
    exact ⟨c, hcv, hothers n c hcv hnA⟩
  have key : ∀ comps' : List (String × Comp δ),
      (∀ n, n ∈ l₁ → dlookup comps' n = dlookup w.components n) →
      dlookup comps' A = some cA →
      ∃ (s₁ : LoopState δ) (rF : ComponentResult δ),
        runLoop w.components w.execution_order ⟨[], [], []⟩ =
          ({ results := dinsert s₁.results A rF, errors := s₁.errors ++ rF.errors,
             outputs := s₁.outputs }, .failedBreak) ∧
        runLoop comps' w.execution_order ⟨[], [], []⟩ =
          ({ results := dinsert s₁.results A rF, errors := s₁.errors ++ rF.errors,
             outputs := s₁.outputs }, .failedBreak) ∧
        rF.status = .failed ∧ s₁.errors = [] ∧
        (∀ m, m ∉ l₁ → dlookup s₁.results m = none) := by
    intro comps' hagree hA'
    obtain ⟨s₁, f1, f2, ferr, fres⟩ :=
      runLoop_clean_prefix w.components comps' l₁ (A :: l₂) ⟨[], [], []⟩ hagree hcleanl₁
    obtain ⟨rF, hrF, hstF⟩ := hAfail (prepare_component_inputs cA s₁.outputs)
    refine ⟨s₁, rF, ?_, ?_, hstF, ferr, ?_⟩
    · rw [horder, f1, runLoop_failed_head w.components A l₂ s₁ hA hrF hstF]
    · rw [horder, f2, runLoop_failed_head comps' A l₂ s₁ hA' hrF hstF]
    · intro m hm
      rw [fres m hm]
      rfl
  obtain ⟨s₁, rF, hrun, _, hstF, herr1, hres1⟩ := key w.components (fun n _ => rfl) hA
  have hex := execute_of_failedBreak none hrun
  refine ⟨?_, ?_, ?_, ?_⟩
  · rw [hex]
  · refine ⟨rF, ?_, hstF, ?_⟩
    · rw [hex]
      exact dlookup_dinsert_self s₁.results A rF
    · rw [hex]
      show s₁.errors ++ rF.errors = rF.errors
      rw [herr1]
      exact List.nil_append rF.errors
  · rw [hex]
    show dlookup (dinsert s₁.results A rF) B = none
    rw [dlookup_dinsert_ne s₁.results rF hBl.2]
    exact hres1 B hBl.1
  · intro f
    have hagree : ∀ n, n ∈ l₁ → dlookup (dupdate w.components B
        (fun cc => { cc with run := f })) n = dlookup w.components n := by
      intro n hn
      have hnB : n ≠ B := fun hh => hBl.1 (hh ▸ hn)
      exact dlookup_dupdate_ne w.components _ hnB
    have hA' : dlookup (dupdate w.components B (fun cc => { cc with run := f })) A =
        some cA := by
      rw [dlookup_dupdate_ne w.components _ (Ne.symm hBl.2)]
      exact hA
    obtain ⟨s₁', rF', h1, h2, _, _, _⟩ :=
      key (dupdate w.components B (fun cc => { cc with run := f })) hagree hA'
    rw [show execute (setRun w B f) none = execute (setRun w B f) none from rfl]
    rw [execute_of_failedBreak none h2, execute_of_failedBreak none h1]

/-- A component whose execute reports failure. -/
def failA : Comp Nat :=
  { name := "A", dependencies := [], outputs := [],
    run := fun _ => .ret { status := .failed, data := 0, errors := ["boom"] },
    validate_config := true }

/-- A component whose execute succeeds. -/
def okB : Comp Nat :=
  { name := "B", dependencies := [], outputs := [],
    run := fun _ => .ret { status := .completed, data := 1, errors := [] },
    validate_config := true }

/-- Graph A → B where A fails, built through the API. -/
def wFail : Workflow Nat :=
  (connect_components (add_component (add_component wEmpty failA).2 okB).2 "A" "B").2

theorem reach_wFail : Reach wFail :=
  Reach.connect "A" "B"
    (Reach.add (Reach.add Reach.empty rfl rfl rfl) rfl rfl rfl) rfl

/-- Witness for C3 at the concrete graph `wFail`. -/
theorem failed_component_short_circuits_witness :
    (execute wFail none).1.status = .failed ∧
    dlookup (execute wFail none).1.component_results "B" = none := by
  have hothers : ∀ n c, dlookup wFail.components n = some c → n ≠ "A" →
      ∀ ins, ∃ r, c.run ins = .ret r ∧ r.status ≠ .failed := by
    intro n c hc hn ins
    have e : wFail.components =
        [("A", add_output failA "B"), ("B", add_dependency okB "A")] := rfl
    rw [e] at hc
    simp only [dlookup] at hc
    by_cases h1 : "A" = n
    · exact absurd h1.symm hn
    · rw [if_neg h1] at hc
      by_cases h2 : "B" = n
      · rw [if_pos h2] at hc
        injection hc with hc
        subst hc
        exact ⟨{ status := .completed, data := 1, errors := [] }, rfl, by decide⟩
      · rw [if_neg h2] at hc
        exact absurd hc (by simp)
  obtain ⟨h1, _, h3, _⟩ :=
    failed_component_short_circuits reach_wFail "A" "B" (add_output failA "B")
      (add_dependency okB "A") rfl rfl (by decide)
      (fun _ => ⟨{ status := .failed, data := 0, errors := ["boom"] }, rfl, rfl⟩) hothers
  exact ⟨h1, h3⟩

/-- C4: on a reachable graph, if one component's execute raises an exception
with a given message (instead of returning a result) and every other
component returns non-failed results, `execute` does not propagate the
exception: it returns a result with status Failed whose errors sequence
contains the exception message. -/
theorem exception_caught {δ : Type} {w : Workflow δ} (hw : Reach w)
    (n : String) (cn : Comp δ) (msg : String)
    (hn : dlookup w.components n = some cn)
    (hexn : ∀ ins, cn.run ins = .exn msg)
    (hothers : ∀ m c, dlookup w.components m = some c → m ≠ n →
      ∀ ins, ∃ r, c.run ins = .ret r ∧ r.status ≠ .failed) :
    (execute w none).1.status = .failed ∧ msg ∈ (execute w none).1.errors := by
  have hord := reach_orderWF hw
  have hno : n ∈ w.execution_order := (hord.mem_iff n).mpr (dlookup_mem_dkeys hn)
  obtain ⟨l₁, l₂, horder, hnl₁⟩ := first_split hno
  have hclean : ∀ m, m ∈ l₁ → ∃ c, dlookup w.components m = some c ∧
      ∀ ins, ∃ r, c.run ins = .ret r ∧ r.status ≠ .failed := by
    intro m hm
    have hmord : m ∈ w.execution_order := by
      rw [horder]
      exact List.mem_append_left _ hm
    obtain ⟨c, hcv⟩ := (mem_dkeys_iff_lookup _ m).mp ((hord.mem_iff m).mp hmord)
    exact ⟨c, hcv, hothers m c hcv (fun hh => hnl₁ (hh ▸ hm))⟩
  obtain ⟨s₁, f1, _, ferr, _⟩ :=
    runLoop_clean_prefix w.components w.components l₁ (n :: l₂) ⟨[], [], []⟩
      (fun _ _ => rfl) hclean
  have hrun : runLoop w.components w.execution_order ⟨[], [], []⟩ = (s₁, .raised msg) := by
    rw [horder, f1, runLoop_exn_head w.components n l₂ s₁ hn (hexn _)]
  have hex := execute_of_raised none hrun
  constructor
  · rw [hex]
  · rw [hex]
    show msg ∈ s₁.errors ++ [msg]
    exact List.mem_append_right _ (List.mem_singleton.mpr rfl)

/-- A component whose execute raises. -/
def exnA : Comp Nat :=
  { name := "A", dependencies := [], outputs := [],
    run := fun _ => .exn "kaboom", validate_config := true }

/-- Single-component workflow whose only component raises. -/
def wExn : Workflow Nat := (add_component wEmpty exnA).2

/-- Witness for C4 at the concrete graph `wExn`. -/
theorem exception_caught_witness :
    (execute wExn none).1.status = .failed ∧ "kaboom" ∈ (execute wExn none).1.errors := by
  have hothers : ∀ m c, dlookup wExn.components m = some c → m ≠ "A" →
      ∀ ins, ∃ r, c.run ins = .ret r ∧ r.status ≠ .failed := by
    intro m c hc hm ins
    exfalso
    have hk := dlookup_mem_dkeys hc
    rw [show dkeys wExn.components = ["A"] from rfl] at hk
    rcases List.mem_cons.mp hk with h | h
    · exact hm h
    · cases h
  have hr : Reach wExn := Reach.add Reach.empty rfl rfl rfl
  exact exception_caught hr "A" exnA "kaboom" rfl (fun _ => rfl) hothers

theorem prepareLoop_lookup {δ : Type} (available : List (String × δ)) :
    ∀ (ds : List String) (acc : List (String × δ)) (d : String),
      dlookup (prepareLoop available ds acc) d =
        if d ∈ ds ∧ (dlookup available d).isSome then dlookup available d
        else dlookup acc d := by
  intro ds
  induction ds with
  | nil =>
    intro acc d
    simp [prepareLoop]
  | cons e ds ih =>
    intro acc d
    simp only [prepareLoop]
    cases he : dlookup available e with
    | some v =>
      rw [ih]
      by_cases hd : d ∈ ds ∧ (dlookup available d).isSome
      · rw [if_pos hd, if_pos ⟨List.mem_cons_of_mem e hd.1, hd.2⟩]
      · rw [if_neg hd]
        by_cases hde : d = e
        · subst hde
          have hcond : d ∈ d :: ds ∧ (dlookup available d).isSome :=
            ⟨List.mem_cons_self d ds, by rw [he]; rfl⟩
          rw [dlookup_dinsert_self, if_pos hcond, he]
        · rw [dlookup_dinsert_ne acc v hde, if_neg ?_]
          intro hcon
          rcases List.mem_cons.mp hcon.1 with h | h
          · exact hde h
          · exact hd ⟨h, hcon.2⟩
    | none =>
      rw [ih]
      by_cases hd : d ∈ ds ∧ (dlookup available d).isSome
      · rw [if_pos hd, if_pos ⟨List.mem_cons_of_mem e hd.1, hd.2⟩]
      · rw [if_neg hd, if_neg ?_]
        intro hcon
        rcases List.mem_cons.mp hcon.1 with h | h
        · subst h
          rw [he] at hcon
          exact absurd hcon.2 (by simp)
        · exact hd ⟨h, hcon.2⟩

/-- C7: the input mapping passed to a component binds exactly those of its
dependency names that have an entry in the current output table, each to the
value of that entry; a dependency name absent from the output table is
simply omitted rather than raising or producing a placeholder. -/
theorem prepare_inputs_exact {δ : Type} (c : Comp δ) (available : List (String × δ))
    (d : String) :
    dlookup (prepare_component_inputs c available) d =
      if d ∈ c.dependencies then dlookup available d else none := by
  unfold prepare_component_inputs
  rw [prepareLoop_lookup]
  by_cases hmem : d ∈ c.dependencies
  · by_cases hsome : (dlookup available d).isSome
    · rw [if_pos ⟨hmem, hsome⟩, if_pos hmem]
    · rw [if_neg (fun hh => hsome hh.2), if_pos hmem]
      cases hav : dlookup available d with
      | none => rfl
      | some v =>
        rw [hav] at hsome
        exact absurd rfl hsome
  · rw [if_neg (fun hh => hmem hh.1), if_neg hmem]
    rfl

/-- C8: for every three-step chain A → B → C (components exactly A, B, C
with B depending on A and C depending on B, execution order A, B, C) in
which every execute returns a non-failed result, the run completes: status
is Completed, `component_results` holds entries for exactly A, B and C, B's
execute receives A's returned data under key A, and C's execute receives
B's returned data under key B. -/
theorem chain_run_completes {δ : Type} (w : Workflow δ) (a b c : String)
    (cA cB cC : Comp δ) (rA rB rC : ComponentResult δ)
    (hab : a ≠ b) (hac : a ≠ c) (hbc : b ≠ c)
    (hcomp : w.components = [(a, cA), (b, cB), (c, cC)])
    (hdA : cA.dependencies = []) (hdB : cB.dependencies = [a])
    (hdC : cC.dependencies = [b])
    (horder : w.execution_order = [a, b, c])
    (hrA : cA.run [] = .ret rA) (hsA : rA.status ≠ .failed)
    (hrB : cB.run [(a, rA.data)] = .ret rB) (hsB : rB.status ≠ .failed)
    (hrC : cC.run [(b, rB.data)] = .ret rC) (hsC : rC.status ≠ .failed) :
    (execute w none).1.status = .completed ∧
    (execute w none).1.component_results = [(a, rA), (b, rB), (c, rC)] := by
  have la : dlookup w.components a = some cA := by
    rw [hcomp]
    simp [dlookup]
  have lb : dlookup w.components b = some cB := by
    rw [hcomp]
    simp [dlookup, hab]
  have lc : dlookup w.components c = some cC := by
    rw [hcomp]
    simp [dlookup, hac, hbc]
  have eA : prepare_component_inputs cA ([] : List (String × δ)) = [] := by
    rw [prepare_component_inputs, hdA]
    rfl
  have eB : prepare_component_inputs cB [(a, rA.data)] = [(a, rA.data)] := by
    rw [prepare_component_inputs, hdB]
    simp [prepareLoop, dlookup, dinsert]
  have eC : prepare_component_inputs cC [(a, rA.data), (b, rB.data)] = [(b, rB.data)] := by
    rw [prepare_component_inputs, hdC]
    simp [prepareLoop, dlookup, dinsert, hab]
  have h1 : runLoop w.components [a, b, c] ⟨[], [], []⟩ =
      runLoop w.components [b, c]
        { results := [(a, rA)], errors := [], outputs := [(a, rA.data)] } := by
    have := runLoop_clean_head w.components a [b, c] ⟨[], [], []⟩ la (by rw [eA]; exact hrA) hsA
    simpa [dinsert] using this
  have h2 : runLoop w.components [b, c]
      { results := [(a, rA)], errors := [], outputs := [(a, rA.data)] } =
      runLoop w.components [c]
        { results := [(a, rA), (b, rB)], errors := [],
          outputs := [(a, rA.data), (b, rB.data)] } := by
    have := runLoop_clean_head w.components b [c]
      { results := [(a, rA)], errors := [], outputs := [(a, rA.data)] }
      lb (by rw [eB]; exact hrB) hsB
    simpa [dinsert, hab] using this
  have h3 : runLoop w.components [c]
      { results := [(a, rA), (b, rB)], errors := [],
        outputs := [(a, rA.data), (b, rB.data)] } =
      runLoop w.components []
        { results := [(a, rA), (b, rB), (c, rC)], errors := [],
          outputs := [(a, rA.data), (b, rB.data), (c, rC.data)] } := by
    have := runLoop_clean_head w.components c []
      { results := [(a, rA), (b, rB)], errors := [],
        outputs := [(a, rA.data), (b, rB.data)] }
      lc (by rw [eC]; exact hrC) hsC
    simpa [dinsert, hac, hbc] using this
  have hrun : runLoop w.components w.execution_order ⟨[], [], []⟩ =
      ({ results := [(a, rA), (b, rB), (c, rC)], errors := [],
         outputs := [(a, rA.data), (b, rB.data), (c, rC.data)] }, .completed) := by
    rw [horder, h1, h2, h3]
    rfl
  have hex := execute_of_completed none hrun
  rw [hex]
  exact ⟨rfl, rfl⟩

/-- Chain component A: no dependencies, returns 1. -/
def chainA : Comp Nat :=
  { name := "A", dependencies := [], outputs := ["B"],
    run := fun _ => .ret { status := .completed, data := 1, errors := [] },
    validate_config := true }

/-- Chain component B: consumes the entry recorded under key A. -/
def chainB : Comp Nat :=
  { name := "B", dependencies := ["A"], outputs := ["C"],
    run := fun ins =>
      .ret { status := .completed, data := (dlookup ins "A").getD 0 + 1, errors := [] },
    validate_config := true }

/-- Chain component C: consumes the entry recorded under key B. -/
def chainC : Comp Nat :=
  { name := "C", dependencies := ["B"], outputs := [],
    run := fun ins =>
      .ret { status := .completed, data := (dlookup ins "B").getD 0 + 1, errors := [] },
    validate_config := true }

/-- The chain workflow A → B → C. -/
def wChain : Workflow Nat :=
  { components := [("A", chainA), ("B", chainB), ("C", chainC)],
    execution_order := ["A", "B", "C"] }

/-- Witness for C8 at the concrete chain `wChain`: the data flows through
the keys A and B, producing 1, 2, 3. -/
theorem chain_run_completes_witness :
    (execute wChain none).1.status = .completed ∧
    (execute wChain none).1.component_results =
      [("A", { status := .completed, data := 1, errors := [] }),
       ("B", { status := .completed, data := 2, errors := [] }),
       ("C", { status := .completed, data := 3, errors := [] })] :=
  chain_run_completes wChain "A" "B" "C" chainA chainB chainC _ _ _
    (by decide) (by decide) (by decide) rfl rfl rfl rfl rfl
    rfl (by decide) rfl (by decide) rfl (by decide)

/-- C9: `validate` is pure and idempotent: it returns the workflow state it
was given unchanged (the method body contains no write to the object), and
a second call on the returned state produces the same problem list. -/
theorem validate_idempotent {δ : Type} (w : Workflow δ) :
    (validate w).2 = w ∧ (validate (validate w).2).1 = (validate w).1 :=
  ⟨rfl, rfl⟩

/-- Every recorded non-failed result has its data stored in the output table
under the step name (invariant of the execution loop). -/
theorem runLoop_results_outputs {δ : Type} (comps : List (String × Comp δ)) :
    ∀ (order : List String) (s out : LoopState δ) (ex : LoopExit),
      runLoop comps order s = (out, ex) →
      (∀ n r, dlookup s.results n = some r → r.status ≠ .failed →
        dlookup s.outputs n = some r.data) →
      ∀ n r, dlookup out.results n = some r → r.status ≠ .failed →
        dlookup out.outputs n = some r.data := by
  intro order
  induction order with
  | nil =>
    intro s out ex h hinv
    simp only [runLoop] at h
    injection h with h1 h2
    subst h1
    exact hinv
  | cons name rest ih =>
    intro s out ex h hinv
    simp only [runLoop] at h
    cases hc : dlookup comps name with
    | none =>
      simp only [hc] at h
      injection h with h1 h2
      subst h1
      exact hinv
    | some comp =>
      simp only [hc] at h
      cases hr : comp.run (prepare_component_inputs comp s.outputs) with
      | exn msg =>
        simp only [hr] at h
        injection h with h1 h2
        subst h1
        exact hinv
      | ret r =>
        simp only [hr] at h
        by_cases hst : r.status = ComponentStatus.failed
        · rw [if_pos hst] at h
          injection h with h1 h2
          subst h1
          intro n rn hn hsn
          have hn' : dlookup (dinsert s.results name r) n = some rn := hn
          show dlookup s.outputs n = some rn.data
          by_cases hne : n = name
          · subst hne
            rw [dlookup_dinsert_self] at hn'
            injection hn' with hv
            subst hv
            exact absurd hst hsn
          · rw [dlookup_dinsert_ne s.results r hne] at hn'
            exact hinv n rn hn' hsn
        · rw [if_neg hst] at h
          refine ih _ out ex h ?_
          intro n rn hn hsn
          have hn' : dlookup (dinsert s.results name r) n = some rn := hn
          show dlookup (dinsert s.outputs name r.data) n = some rn.data
          by_cases hne : n = name
          · subst hne
            rw [dlookup_dinsert_self] at hn'
            injection hn' with hv
            subst hv
            exact dlookup_dinsert_self s.outputs n r.data
          · rw [dlookup_dinsert_ne s.outputs r.data hne]
            rw [dlookup_dinsert_ne s.results r hne] at hn'
            exact hinv n rn hn' hsn

/-- Keys outside the executed order keep their output-table entry. -/
theorem runLoop_outputs_frame {δ : Type} (comps : List (String × Comp δ)) :
    ∀ (order : List String) (s out : LoopState δ) (ex : LoopExit),
      runLoop comps order s = (out, ex) →
      ∀ k, k ∉ order → dlookup out.outputs k = dlookup s.outputs k := by
  intro order
  induction order with
  | nil =>
    intro s out ex h k hk
    simp only [runLoop] at h
    injection h with h1 _
    subst h1
    rfl
  | cons name rest ih =>
    intro s out ex h k hk
    have hkr : k ∉ rest := fun hh => hk (List.mem_cons_of_mem name hh)
    have hkn : k ≠ name := fun hh => hk (hh ▸ List.mem_cons_self name rest)
    simp only [runLoop] at h
    cases hc : dlookup comps name with
    | none =>
      simp only [hc] at h
      injection h with h1 _
      subst h1
      rfl
    | some comp =>
      simp only [hc] at h
      cases hr : comp.run (prepare_component_inputs comp s.outputs) with
      | exn msg =>
        simp only [hr] at h
        injection h with h1 _
        subst h1
        rfl
      | ret r =>
        simp only [hr] at h
        by_cases hst : r.status = ComponentStatus.failed
        · rw [if_pos hst] at h
          injection h with h1 _
          subst h1
          rfl
        · rw [if_neg hst] at h
          have hrec := ih _ out ex h k hkr
          rw [hrec]
          show dlookup (dinsert s.outputs name r.data) k = dlookup s.outputs k
          exact dlookup_dinsert_ne s.outputs r.data hkn

theorem execute_parts {δ : Type} (w : Workflow δ) (init : Option (List (String × δ))) :
    ∃ out ex,
      runLoop w.components w.execution_order ⟨[], [], initialOutputs init⟩ = (out, ex) ∧
      (execute w init).1.component_results = out.results ∧
      (execute w init).2 = out.outputs := by
  cases hres : runLoop w.components w.execution_order ⟨[], [], initialOutputs init⟩ with
  | mk out ex =>
    refine ⟨out, ex, rfl, ?_⟩
    unfold execute
    rw [hres]
    cases ex <;> exact ⟨rfl, rfl⟩

/-- Models the CPython aliasing in `component_outputs = initial_inputs or {}`:
a non-empty caller-supplied dict is bound directly, so the in-place writes
of the loop are visible to the caller, whose mapping after the run is the
final output table; an empty (or omitted) mapping makes the engine use a
fresh dict and the caller-visible object is never written. -/
def callerMappingAfterRun {δ : Type} (w : Workflow δ) (initial : List (String × δ)) :
    List (String × δ) :=
  if initial.isEmpty then initial else (execute w (some initial)).2

/-- C10: with a non-empty initial mapping the caller-visible mapping after
the run is the run's final output table: it contains, under each step name,
the data of every step that completed, while keys outside the execution
order keep their original binding; with an empty or omitted mapping a fresh
table is used and the caller-visible object is unchanged. -/
theorem initial_inputs_aliasing {δ : Type} (w : Workflow δ) (m : List (String × δ))
    (hm : m ≠ []) :
    callerMappingAfterRun w m = (execute w (some m)).2 ∧
    (∀ n r, dlookup (execute w (some m)).1.component_results n = some r →
      r.status ≠ .failed → dlookup (callerMappingAfterRun w m) n = some r.data) ∧
    (∀ k, k ∉ w.execution_order →
      dlookup (callerMappingAfterRun w m) k = dlookup m k) ∧
    execute w (some []) = execute w none ∧
    callerMappingAfterRun w [] = [] := by
  have hemp : m.isEmpty = false := by
    cases m with
    | nil => exact absurd rfl hm
    | cons p t => rfl
  have hcall : callerMappingAfterRun w m = (execute w (some m)).2 := by
    unfold callerMappingAfterRun
    rw [hemp]
    rfl
  have hinit : initialOutputs (some m) = m := by
    show (if m.isEmpty then [] else m) = m
    rw [hemp]
    rfl
  obtain ⟨out, ex, hres, hresr, hreso⟩ := execute_parts w (some m)
  rw [hinit] at hres
  refine ⟨hcall, ?_, ?_, rfl, rfl⟩
  · intro n r hn hs
    rw [hcall, hreso]
    rw [hresr] at hn
    refine runLoop_results_outputs w.components w.execution_order ⟨[], [], m⟩ out ex
      hres ?_ n r hn hs
    intro n0 r0 hn0 _
    exact absurd hn0 (by simp [dlookup])
  · intro k hk
    rw [hcall, hreso]
    have hfr := runLoop_outputs_frame w.components w.execution_order ⟨[], [], m⟩ out ex
      hres k hk
    rw [hfr]

/-- A single successful component producing data 5. -/
def outComp : Comp Nat :=
  { name := "A", dependencies := [], outputs := [],
    run := fun _ => .ret { status := .completed, data := 5, errors := [] },
    validate_config := true }

/-- Single-component workflow for the C10 witness. -/
def wOne : Workflow Nat := (add_component wEmpty outComp).2

/-- Witness for C10: running `wOne` with the non-empty seed mapping leaves
the caller-visible mapping equal to the final output table, which gains the
completed data under key A and keeps the seed entry. -/
theorem initial_inputs_aliasing_witness :
    callerMappingAfterRun wOne [("seed", 9)] = (execute wOne (some [("seed", 9)])).2 ∧
    dlookup (callerMappingAfterRun wOne [("seed", 9)]) "A" = some 5 ∧
    dlookup (callerMappingAfterRun wOne [("seed", 9)]) "seed" =
      dlookup [("seed", 9)] "seed" := by
  obtain ⟨h1, h2, h3, _, _⟩ := initial_inputs_aliasing wOne [("seed", 9)] (by decide)
  refine ⟨h1, ?_, h3 "seed" (by decide)⟩
  exact h2 "A" { status := .completed, data := 5, errors := [] } rfl (by decide)
